import Mathlib

/-!
Shallow embedding of the Transformation core of the repository
(`src/Library/Transformation.py`): the location resolver, phone normalizer,
email extractor, identity resolver and the duplicate-merge engine, together
with theorems settling the spec claims C1-C10.

Modelling conventions:
* a pandas cell is an `Option String`; `none` models a null value (`NaN`),
  `some ""` models the empty string.  `pd.isnull` is `= none` (note that
  `pd.isnull("")` is `False` in pandas).
* a Python function that can raise an exception is modelled as returning an
  `Option`, with `none` for the raised exception; since an uncaught exception
  aborts the whole batch, callers propagate `none`.
* rows of the DataFrame are association lists from column names to cells; the
  `createdAt` column is kept in a separate field because after the engine's
  `pd.to_datetime` step it holds a parsed (never-null) instant, so the
  backfill null-check can never fire for it.
-/

/-- `present v` is the Python test `pd.notnull(v) and v != ""` used throughout
`Transformation.py`; its negation is `pd.isnull(v) or v == ""`. -/
def present (v : Option String) : Bool :=
  match v with
  | none => false
  | some s => s != ""

/-- Cells of one DataFrame row: column name to optional string value. -/
abbrev Cells := List (String × Option String)

/-- One row of the DataFrame handed to `duplicate_management`.  `created` is
the raw `createdAt` string; all the other columns live in `cells`. -/
structure Row where
  created : String
  cells : Cells
deriving DecidableEq

/-- `df.at[index, c]` flattened over nullness: the value of column `c`
(`none` both for a null cell and for an absent column). -/
def getCell (r : Row) (c : String) : Option String :=
  match r.cells.find? (fun e => e.1 == c) with
  | some e => e.2
  | none => none

/-- `df.at[index, c] = v`: overwrite the value of column `c`. -/
def setCell (r : Row) (c : String) (v : Option String) : Row :=
  { r with cells := r.cells.map (fun e => if e.1 == c then (e.1, v) else e) }

/-! ## Location Resolver (`country_recognition`, lines 26-72) -/

/-- `load_country_city_database` (lines 26-37): the static country → cities
table. -/
def load_country_city_database : List (String × List String) :=
  [("England", ["Plymouth", "Milton Keynes", "Oxford", "London", "Winchester"]),
   ("Ireland", ["Waterford", "Limerick", "Dublin", "Cork"])]

/-- Python's `str.lower()` on the ASCII strings involved: per-character
lowercase.  (We avoid `String.toLower` only because its `mapAux`
implementation does not reduce in the kernel; on these strings the two
agree.) -/
def pyLower (s : String) : String :=
  String.mk (s.data.map Char.toLower)

/-- The nested scan of lines 62-67: fold over every (country, city-list) pair,
overwriting `(city_found, country_found)` on each case-insensitive hit, so the
last match in table iteration order wins. -/
def city_scan (locations : List (String × List String)) (p : String)
    (acc : Bool × String) : Bool × String :=
  locations.foldl
    (fun a pr =>
      pr.2.foldl (fun a2 city => if pyLower p == pyLower city then (true, pr.1) else a2) a)
    acc

/-- `country_recognition` (lines 39-72), generalized over the lookup table the
source obtains from `load_country_city_database`. -/
def country_recognition_table (locations : List (String × List String))
    (place : Option String) : String × String :=
  match place with
  | none => ("Nan", "Nan")
  | some p =>
    if (locations.map Prod.fst).contains p then (p, "Unknown")
    else
      let scan := city_scan locations p (false, "")
      if scan.1 then (scan.2, p) else ("Unknown", "Not recognized")

/-- `country_recognition` as the source ships it, on the static table. -/
def country_recognition (place : Option String) : String × String :=
  country_recognition_table load_country_city_database place

/-! ## Phone Normalizer (`fix_phone_numbers`, lines 128-176) -/

/-- `country_codes_database` (lines 128-143). -/
def country_codes_database (country : String) : String :=
  if country == "Great Britain" then "+44"
  else if country == "Ireland" then "+353"
  else ""

/-- `fix_phone_numbers` (lines 145-176).  `re.sub('\D', '', raw_phone)` keeps
the decimal digits, `lstrip('0')` drops leading zeros, and the output is the
fixed `"(<code>) xxxx xxx..."` format split after the fourth digit. -/
def fix_phone_numbers (raw_phone : Option String) (country : String) : String :=
  match raw_phone with
  | none => "Nan"
  | some rp =>
    let c := if country ∈ ["England", "Wales", "Northern Ireland", "Scotland"]
             then "Great Britain" else country
    let code := country_codes_database c
    let digits := rp.data.filter Char.isDigit
    let ds := digits.dropWhile (fun ch => ch == '0')
    "(" ++ code ++ ") " ++ String.mk (ds.take 4) ++ " " ++ String.mk (ds.drop 4)

/-! ## Email Extractor (`found_emails`, lines 95-122)

`re.search('<(.*)>', s)` with a greedy `.*`: the match starts at the first
`<` that is followed by a `>` on the same line, and the greedy group extends
to the last `>` before the next newline — Python's `.` does not match `'\n'`
without `re.DOTALL`, so a match never crosses a line break.  `upToLastGt l`
is the backtracking of `.*>`: it returns the prefix of `l` before the last
`'>'` that precedes the first `'\n'`, or `none` when there is no such
`'>'`. -/

/-- Greedy `(.*)>` on the characters after a `<`: everything before the last
`'>'` of the newline-free run, if any (`.` without `re.DOTALL` stops at
`'\n'`). -/
def upToLastGt : List Char → Option (List Char)
  | [] => none
  | c :: cs =>
    if c == '\n' then none
    else
      match upToLastGt cs with
      | some r => some (c :: r)
      | none => if c == '>' then some [] else none

/-- Leftmost search for `<(.*)>`: scan for a `'<'`, then try the greedy group;
on failure keep scanning. -/
def searchLtGt : List Char → Option (List Char)
  | [] => none
  | c :: cs =>
    if c == '<' then
      match upToLastGt cs with
      | some r => some r
      | none => searchLtGt cs
    else searchLtGt cs

/-- `found_emails` (lines 95-122) at its default pattern `'<(.*)>'`: null
input gives `""`; a match gives the captured group; on a failed match the
function prints a diagnostic and returns the input unchanged (fail-soft). -/
def found_emails (raw_email : Option String) : String :=
  match raw_email with
  | none => ""
  | some s =>
    match searchLtGt s.data with
    | some grp => String.mk grp
    | none => s

/-! ## Identity Resolver (`name_from_email` and `generate_name`, lines 178-222)

`re.search('([a-z]+)_([a-z]+)', email)` is case-sensitive (no `re.IGNORECASE`
flag) and its character classes are the ASCII lowercase letters.  Because
`[a-z]+` is greedy and can only stop at a non-lowercase character, the match
starting at a position exists iff the maximal lowercase run from there is
followed by `'_'` and then at least one lowercase letter; `re.search` takes
the leftmost such position. -/

/-- The character class `[a-z]`. -/
def isLowAZ (c : Char) : Bool :=
  'a' ≤ c && c ≤ 'z'

/-- Whether a match of `([a-z]+)_([a-z]+)` STARTS at this position, and its
two greedy groups if so.  Because `[a-z]+` can only stop at a non-lowercase
character, a match starts here iff the maximal lowercase run from here is
followed by `'_'` and then at least one lowercase letter (no shorter group
can help: it would have to be followed by a lowercase letter, not `'_'`). -/
def tryMatchAt : List Char → Option (List Char × List Char)
  | [] => none
  | c :: cs =>
    if isLowAZ c then
      match cs.dropWhile isLowAZ with
      | '_' :: rest2 =>
        let g2 := rest2.takeWhile isLowAZ
        if g2 = [] then none else some (c :: cs.takeWhile isLowAZ, g2)
      | _ => none
    else none

/-- Leftmost match of `([a-z]+)_([a-z]+)`, as `re.search` finds it: try every
start position from the left, first success wins; `none` when the pattern
does not occur (in which case `re.search` returns `None` and the caller's
`.group` raises `AttributeError`). -/
def searchNameParts : List Char → Option (List Char × List Char)
  | [] => none
  | c :: cs => (tryMatchAt (c :: cs)).or (searchNameParts cs)

/-- Python's `str.capitalize`: first character uppercased, the rest
lowercased. -/
def pyCapitalize (l : List Char) : String :=
  match l with
  | [] => ""
  | c :: cs => String.mk (c.toUpper :: cs.map Char.toLower)

/-- `name_from_email` (lines 178-194) at the default pattern
`'([a-z]+)_([a-z]+)'`.  `none` models the `AttributeError` raised when the
pattern does not match (`name` is `None`). -/
def name_from_email (email : String) : Option String :=
  (searchNameParts email.data).map
    (fun g => pyCapitalize g.1 ++ " " ++ pyCapitalize g.2)

/-- `generate_name` (lines 196-222).  The email fallback fires only when the
two name fields are both null or both the empty string; otherwise the function
evaluates `firstname + " " + lastname`, which raises `TypeError` (modelled as
`none`) when exactly one of the two is null. -/
def generate_name (r : Row) : Option String :=
  let first := getCell r "firstname"
  let last := getCell r "lastname"
  let mail := getCell r "raw_email"
  if (first = none ∧ last = none) ∨ (first = some "" ∧ last = some "") then
    if mail = some "" ∨ mail = none then some ""
    else name_from_email (mail.getD "")
  else
    match first, last with
    | some f, some l => some (f ++ " " ++ l)
    | _, _ => none

/-! ## Merge Engine (`concat_industries` and `duplicate_management`,
lines 224-306)

The engine parses `createdAt` with `pd.to_datetime` (which raises on an
unparsable value, aborting the whole batch), sorts descending by the parsed
instant, and makes one pass keeping a dict `{name: [index, [industries]]}`
in insertion order.  For an already-seen name it backfills the missing
fields of the representative row from the older row (skipping `industry`)
and front-inserts an unseen industry value; finally `concat_industries`
serializes multi-valued industry lists and the representatives are selected
by index. -/

/-- Model of `pd.to_datetime` with its default `errors="raise"`: an ISO
`YYYY-MM-DD` date string parses to a comparable instant, anything else raises
(`none`).  (The timestamps the pipeline feeds in are of this shape.) -/
def parseDate (s : String) : Option Nat :=
  match s.data with
  | [y1, y2, y3, y4, h1, m1, m2, h2, d1, d2] =>
    if ([y1, y2, y3, y4, m1, m2, d1, d2].all Char.isDigit) ∧ h1 = '-' ∧ h2 = '-' then
      some ((((((((y1.toNat - 48) * 10 + (y2.toNat - 48)) * 10 + (y3.toNat - 48)) * 10
        + (y4.toNat - 48)) * 10 + (m1.toNat - 48)) * 10 + (m2.toNat - 48)) * 10
        + (d1.toNat - 48)) * 10 + (d2.toNat - 48))
    else none
  | _ => none

/-- The backfill loop of lines 290-295 for one older row `r` into the
representative `rep`: every column except `industry` whose representative
value is null or `""` and whose older value is present and non-empty is
overwritten with the older value. -/
def cellUpd (r : Row) (e : String × Option String) : String × Option String :=
  if e.1 == "industry" then e
  else if !present e.2 && present (getCell r e.1) then (e.1, getCell r e.1)
  else e

def backfill (rep r : Row) : Row :=
  { rep with cells := rep.cells.map (cellUpd r) }

/-- `row['industry']` of a row. -/
def industryOf (r : Row) : Option String :=
  getCell r "industry"

/-- Line 297-298: insert an industry value at the front of the accumulated
list unless it is already present (`not in` uses equality, and the pandas
`NaN` singleton makes two null values compare equal under `in`). -/
def insOpt (l : List (Option String)) (v : Option String) : List (Option String) :=
  if v ∈ l then l else v :: l

/-- One table entry: the representative's index and row, and the accumulated
industry list. -/
abbrev Entry := (Nat × Row) × List (Option String)

/-- The dict `first_records`, in insertion order. -/
abbrev Table := List (String × Entry)

/-- Processing one already-seen older row: backfill the representative and
accumulate its industry value. -/
def stepEntry (e : Entry) (p : Nat × Row) : Entry :=
  ((e.1.1, backfill e.1.2 p.2), insOpt e.2 (industryOf p.2))

/-- `first_records[name]` lookup. -/
def table_lookup (tbl : Table) (name : String) : Option Entry :=
  match tbl.find? (fun en => en.1 == name) with
  | some en => some en.2
  | none => none

/-- In-place update of the entry for `name`. -/
def table_update (tbl : Table) (name : String) (v : Entry) : Table :=
  tbl.map (fun en => if en.1 == name then (en.1, v) else en)

/-- The loop of lines 280-298 over the sorted rows (`p.1` is the DataFrame
index label of the row `p.2`).  A `generate_name` exception (`none`) aborts
the batch; an empty name is skipped (`continue`); a new name is appended to
the dict with the row as representative and its industry as the seeded list;
an already-seen name backfills and accumulates. -/
def processTable : Table → List (Nat × Row) → Option Table
  | tbl, [] => some tbl
  | tbl, p :: rs =>
    match generate_name p.2 with
    | none => none
    | some name =>
      if name = "" then processTable tbl rs
      else
        match table_lookup tbl name with
        | none => processTable (tbl ++ [(name, ((p.1, p.2), [industryOf p.2]))]) rs
        | some e => processTable (table_update tbl name (stepEntry e p)) rs

/-- `concat_industries` (lines 224-252) on one dict entry: when the list has
more than one value, join with `";"` and a leading `";'` and store in the
representative's `industry`; `";".join` raises `TypeError` (`none`) if a null
value is in the list.  A single-valued list leaves the row unchanged. -/
def seqOpt : List (Option String) → Option (List String)
  | [] => some []
  | none :: _ => none
  | some s :: rest => (seqOpt rest).map (fun l => s :: l)

def serializeEntry (en : String × Entry) : Option (Nat × Row) :=
  if en.2.2.length > 1 then
    match seqOpt en.2.2 with
    | some ss =>
      some (en.2.1.1, setCell en.2.1.2 "industry" (some (";" ++ String.intercalate ";" ss)))
    | none => none
  else some en.2.1

/-- `concat_industries` over the whole dict, returning the representative
rows in dict insertion order (the subsequent `df.loc[indexes, :]`
selection). -/
def concat_industries : Table → Option (List (Nat × Row))
  | [] => some []
  | en :: rest =>
    match serializeEntry en with
    | none => none
    | some pr => (concat_industries rest).map (fun l => pr :: l)

/-- `pd.to_datetime(df['createdAt'])` over the column, labelling each row
with its index (position `i` onward): `none` as soon as one value fails to
parse, which is the library raising and aborting the batch. -/
def parse_created (i : Nat) (df : List Row) : Option (List (Nat × Nat × Row)) :=
  match df with
  | [] => some []
  | r :: rest =>
    match parseDate r.created with
    | none => none
    | some t => (parse_created (i + 1) rest).map (fun l => (t, i, r) :: l)

/-- `df.sort_values(by=['createdAt'], ascending=False)` followed by dropping
the parsed instant: the rows with their index labels, most recent first.
(pandas' default quicksort leaves the relative order of equal timestamps
unspecified; the model picks the stable order.  No claim depends on the tie
order.) -/
def sortedRows (df : List Row) : Option (List (Nat × Row)) :=
  (parse_created 0 df).map (fun l =>
    (List.insertionSort (fun a b => b.1 < a.1) l).map (fun q => (q.2.1, q.2.2)))

/-- The merge pass of `duplicate_management` up to (not including)
`concat_industries`: the final dict `first_records`. -/
def mergePass (df : List Row) : Option Table :=
  (sortedRows df).bind (fun rs => processTable [] rs)

/-- `duplicate_management` (lines 254-306): parse and sort, run the pass,
serialize industries and emit the representatives (with index labels). -/
def duplicate_management (df : List Row) : Option (List (Nat × Row)) :=
  (mergePass df).bind concat_industries

/-! ## Lemmas about the Location Resolver scan -/

/-- Folding the overwrite step over one country's city list either hits some
city (giving that country) or leaves the accumulator unchanged. -/
lemma foldl_overwrite_eq (p c : String) (cities : List String) (a : Bool × String) :
    cities.foldl (fun a2 city => if pyLower p == pyLower city then (true, c) else a2) a
      = if cities.any (fun city => pyLower p == pyLower city) then (true, c) else a := by
  induction cities generalizing a with
  | nil => simp
  | cons city rest ih =>
    simp only [List.foldl_cons, List.any_cons, ih]
    by_cases h : pyLower p == pyLower city <;> simp [h]

/-- The overwrite scan of lines 62-67 computes the LAST matching country in
table iteration order: it equals the first match of the reversed table. -/
lemma city_scan_eq (locations : List (String × List String)) (p : String)
    (acc : Bool × String) :
    city_scan locations p acc =
      match locations.reverse.find?
          (fun pr => pr.2.any (fun city => pyLower p == pyLower city)) with
      | some pr => (true, pr.1)
      | none => acc := by
  induction locations generalizing acc with
  | nil => simp [city_scan]
  | cons pr rest ih =>
    have hstep : city_scan (pr :: rest) p acc
        = city_scan rest p
            (if pr.2.any (fun city => pyLower p == pyLower city) then (true, pr.1) else acc) := by
      simp only [city_scan, List.foldl_cons]
      rw [foldl_overwrite_eq]
    rw [hstep, ih]
    simp only [List.reverse_cons, List.find?_append]
    cases hfind : rest.reverse.find? (fun pr => pr.2.any (fun city => pyLower p == pyLower city)) with
    | some q => simp
    | none =>
      by_cases hm : pr.2.any (fun city => pyLower p == pyLower city) <;>
        simp [List.find?, hm]

/-- C8: the Location Resolver returns `(place, "Unknown")` on an exact,
case-sensitive country-key match; otherwise the case-insensitive city scan
applies, the LAST country in table iteration order winning when several
contain the city; otherwise `("Unknown", "Not recognized")`. -/
theorem claim_C8 (locations : List (String × List String)) (place : String) :
    country_recognition_table locations (some place) =
      if (locations.map Prod.fst).contains place then (place, "Unknown")
      else
        match locations.reverse.find?
            (fun pr => pr.2.any (fun city => pyLower place == pyLower city)) with
        | some pr => (pr.1, place)
        | none => ("Unknown", "Not recognized") := by
  by_cases hk : (locations.map Prod.fst).contains place
  · simp only [country_recognition_table]
    rw [if_pos hk, if_pos hk]
  · simp only [country_recognition_table, hk, Bool.false_eq_true, if_false]
    rw [city_scan_eq]
    cases hfind : locations.reverse.find?
        (fun pr => pr.2.any (fun city => pyLower place == pyLower city)) with
    | some q => simp
    | none => simp

/-- C9 counterexample: on the EMPTY STRING (not null) the two components do
not return their missing-input sentinels: `pd.isnull("")` is false, so the
empty string takes the ordinary paths. -/
theorem claim_C9_counterexample :
    country_recognition (some "") = ("Unknown", "Not recognized")
  ∧ country_recognition (some "") ≠ ("Nan", "Nan")
  ∧ fix_phone_numbers (some "") "England" = "(+44)  "
  ∧ fix_phone_numbers (some "") "England" ≠ "Nan" := by
  exact ⟨by decide, by decide, by decide, by decide⟩

/-- C9 amended: the sentinels `("Nan","Nan")` and `"Nan"` are returned
exactly for null (absent) input; the empty string is NOT treated as missing:
the Location Resolver sends `""` to `("Unknown","Not recognized")` and the
Phone Normalizer formats it as a parenthesized dialing code followed by two
spaces and no digits. -/
theorem claim_C9 :
    country_recognition none = ("Nan", "Nan")
  ∧ (∀ country, fix_phone_numbers none country = "Nan")
  ∧ country_recognition (some "") = ("Unknown", "Not recognized")
  ∧ (∀ country, fix_phone_numbers (some "") country
      = "(" ++ country_codes_database
          (if country ∈ ["England", "Wales", "Northern Ireland", "Scotland"]
           then "Great Britain" else country) ++ ")  ") := by
  refine ⟨rfl, fun c => rfl, by decide, fun c => ?_⟩
  simp only [fix_phone_numbers]
  apply String.ext
  simp [String.data_append]

/-! ## Lemmas about the Email Extractor -/

lemma upToLastGt_eq_none (l : List Char) (h : '>' ∉ l) : upToLastGt l = none := by
  induction l with
  | nil => rfl
  | cons c cs ih =>
    simp only [List.mem_cons, not_or] at h
    have hc : (c == '>') = false := by
      simp only [beq_eq_false_iff_ne, ne_eq]
      exact fun hh => h.1 hh.symm
    simp [upToLastGt, ih h.2, hc]

lemma upToLastGt_append_gt (g tail : List Char) (hg : '\n' ∉ g) (h : '>' ∉ tail) :
    upToLastGt (g ++ '>' :: tail) = some g := by
  induction g with
  | nil => simp [upToLastGt, upToLastGt_eq_none tail h]
  | cons c cs ih =>
    simp only [List.mem_cons, not_or] at hg
    have hc : (c == '\n') = false := by
      simp only [beq_eq_false_iff_ne, ne_eq]
      exact fun hh => hg.1 hh.symm
    simp [upToLastGt, hc, ih hg.2]

lemma searchLtGt_append_of_not_mem (a l : List Char) (h : '<' ∉ a) :
    searchLtGt (a ++ l) = searchLtGt l := by
  induction a with
  | nil => rfl
  | cons c cs ih =>
    simp only [List.mem_cons, not_or] at h
    have hc : (c == '<') = false := by
      simp only [beq_eq_false_iff_ne, ne_eq]
      exact fun hh => h.1 hh.symm
    simp [searchLtGt, hc, ih h.2]

/-- C10 counterexample: Python's `.` without `re.DOTALL` does not match a
newline, so on `"<A>\n<B>"` — an input with two angle-delimited segments —
the match is confined to the first line: the extractor returns `"A"`, the
contents of a single delimited segment, NOT the substring `"A>\n<B"` lying
between the first `'<'` and the last `'>'` of the input. -/
theorem claim_C10_counterexample :
    found_emails (some "<A>\n<B>") = "A"
  ∧ ("A" : String) ≠ "A>\n<B" := by
  exact ⟨by decide, by decide⟩

/-- C10 amended: with two (or more) angle-delimited segments and NO NEWLINE
between the first `'<'` and the last `'>'`, the default pattern `<(.*)>`
matches greedily and the captured group runs from the first `'<'` to the
last `'>'`, spanning the delimiters in between; when a newline separates the
segments the match is instead confined to a single line (see the
counterexample). -/
theorem claim_C10 (a x b y c : String) (ha : '<' ∉ a.data) (hc : '>' ∉ c.data)
    (hx : '\n' ∉ x.data) (hb : '\n' ∉ b.data) (hy : '\n' ∉ y.data) :
    found_emails (some (a ++ "<" ++ x ++ ">" ++ b ++ "<" ++ y ++ ">" ++ c))
      = x ++ ">" ++ b ++ "<" ++ y := by
  have hg : '\n' ∉ x.data ++ '>' :: (b.data ++ '<' :: y.data) := by
    simp only [List.mem_append, List.mem_cons, not_or]
    exact ⟨hx, by decide, hb, by decide, hy⟩
  have hgroup : (x.data ++ '>' :: (b.data ++ '<' :: y.data)) ++ '>' :: c.data
      = x.data ++ '>' :: (b.data ++ '<' :: (y.data ++ '>' :: c.data)) := by
    simp [List.append_assoc]
  have hdata : (a ++ "<" ++ x ++ ">" ++ b ++ "<" ++ y ++ ">" ++ c).data
      = a.data ++ '<' :: ((x.data ++ '>' :: (b.data ++ '<' :: y.data)) ++ '>' :: c.data) := by
    rw [hgroup]
    simp [String.data_append, show ("<" : String).data = ['<'] from rfl,
      show (">" : String).data = ['>'] from rfl]
  have hsearch : searchLtGt ('<' :: ((x.data ++ '>' :: (b.data ++ '<' :: y.data)) ++ '>' :: c.data))
      = some (x.data ++ '>' :: (b.data ++ '<' :: y.data)) := by
    rw [show searchLtGt ('<' :: ((x.data ++ '>' :: (b.data ++ '<' :: y.data)) ++ '>' :: c.data))
        = match upToLastGt ((x.data ++ '>' :: (b.data ++ '<' :: y.data)) ++ '>' :: c.data) with
          | some r => some r
          | none => searchLtGt ((x.data ++ '>' :: (b.data ++ '<' :: y.data)) ++ '>' :: c.data)
      from rfl]
    rw [upToLastGt_append_gt _ _ hg hc]
  simp only [found_emails, hdata]
  rw [searchLtGt_append_of_not_mem _ _ ha, hsearch]
  apply String.ext
  simp [String.data_append, show (">" : String).data = ['>'] from rfl,
    show ("<" : String).data = ['<'] from rfl]

/-- C10 witness: the claim's own example, `"a <x@y> b <z@w>"` yields
`"x@y> b <z@w"`. -/
theorem claim_C10_witness :
    found_emails (some "a <x@y> b <z@w>") = "x@y> b <z@w" := by
  have h := claim_C10 "a " "x@y" " b " "z@w" ""
    (by decide) (by decide) (by decide) (by decide) (by decide)
  exact h

/-! ## Identity Resolver claims C6 and C7 -/

/-- C6 counterexample record: exactly one name field non-empty
(`firstname = "John"`, `lastname = ""`) and an email present. -/
def c6row : Row :=
  ⟨"2024-01-01",
   [("firstname", some "John"), ("lastname", some ""),
    ("raw_email", some "jane_doe@mail.com"), ("industry", some "Meat")]⟩

/-- C6 counterexample: with exactly one name field present the Identity
Resolver concatenates the name fields (yielding `"John "`), it does NOT
derive the identity from the email local part (which would give
`"Jane Doe"`). -/
theorem claim_C6_counterexample :
    generate_name c6row = some "John "
  ∧ name_from_email "jane_doe@mail.com" = some "Jane Doe"
  ∧ ("John " : String) ≠ "Jane Doe" := by
  exact ⟨by decide, by decide, by decide⟩

/-- C6 amended: the email fallback fires only when `firstname` and `lastname`
are BOTH null or BOTH empty strings; whenever both fields are (string)
values not both empty — in particular when exactly one of them is non-empty —
the identity is the concatenation `firstname + " " + lastname`, the email
being ignored. -/
theorem claim_C6 (r : Row) :
    (∀ f l, getCell r "firstname" = some f → getCell r "lastname" = some l →
      ¬(f = "" ∧ l = "") → generate_name r = some (f ++ " " ++ l))
  ∧ (∀ e, ((getCell r "firstname" = none ∧ getCell r "lastname" = none)
        ∨ (getCell r "firstname" = some "" ∧ getCell r "lastname" = some "")) →
      getCell r "raw_email" = some e → e ≠ "" →
      generate_name r = name_from_email e) := by
  constructor
  · intro f l hf hl hne
    simp only [generate_name, hf, hl]
    have hcond : ¬((some f = none ∧ some l = none) ∨ (some f = some "" ∧ some l = some "")) := by
      rintro (⟨h1, h2⟩ | ⟨h1, h2⟩)
      · exact Option.noConfusion h1
      · exact hne ⟨Option.some.inj h1, Option.some.inj h2⟩
    rw [if_neg hcond]
  · intro e hns he hne
    rcases hns with ⟨h1, h2⟩ | ⟨h1, h2⟩ <;>
      simp [generate_name, h1, h2, he, hne]

/-- C6 witness rows: both names present not both empty; both names empty
with an email. -/
def c6wrow1 : Row :=
  ⟨"2024-01-01",
   [("firstname", some "John"), ("lastname", some "Doe"),
    ("raw_email", none), ("industry", none)]⟩

def c6wrow2 : Row :=
  ⟨"2024-01-01",
   [("firstname", some ""), ("lastname", some ""),
    ("raw_email", some "jane_doe42@mail.com"), ("industry", none)]⟩

theorem claim_C6_witness :
    generate_name c6wrow1 = some ("John" ++ " " ++ "Doe")
  ∧ generate_name c6wrow2 = name_from_email "jane_doe42@mail.com" := by
  exact ⟨(claim_C6 c6wrow1).1 "John" "Doe" (by decide) (by decide) (by decide),
    (claim_C6 c6wrow2).2 "jane_doe42@mail.com" (Or.inr ⟨by decide, by decide⟩)
      (by decide) (by decide)⟩

/-- C7 counterexample record: both names empty, email local part
`"Jane_Doe"` (capitalized). -/
def c7row : Row :=
  ⟨"2024-01-01",
   [("firstname", some ""), ("lastname", some ""),
    ("raw_email", some "Jane_Doe@mail.com"), ("industry", some "Meat")]⟩

/-- C7 counterexample: the pattern `([a-z]+)_([a-z]+)` has no `re.IGNORECASE`
flag, so the capitalized local part `"Jane_Doe"` does NOT match: `re.search`
returns `None` and `.group(1)` raises `AttributeError` (modelled `none`)
instead of resolving to `"Jane Doe"`. -/
theorem claim_C7_counterexample :
    name_from_email "Jane_Doe@mail.com" = none
  ∧ name_from_email "Jane_Doe@mail.com" ≠ some "Jane Doe"
  ∧ generate_name c7row = none := by
  exact ⟨by decide, by decide, by decide⟩

/-- C7 amended witness record: both names empty, lowercase local part. -/
def c7row2 : Row :=
  ⟨"2024-01-01",
   [("firstname", some ""), ("lastname", some ""),
    ("raw_email", some "jane_doe42@mail.com"), ("industry", some "Meat")]⟩

/-- C7 amended: the fallback matches the two lowercase letter-groups joined
by an underscore CASE-SENSITIVELY.  A lowercase local part such as
`"jane_doe42"` resolves to `"Jane Doe"` (groups capitalized and joined by a
space); a capitalized local part such as `"Jane_Doe"` does not match and
raises instead of resolving. -/
theorem claim_C7 :
    generate_name c7row2 = some "Jane Doe"
  ∧ name_from_email "jane_doe42@mail.com" = some "Jane Doe"
  ∧ name_from_email "Jane_Doe@mail.com" = none := by
  exact ⟨by decide, by decide, by decide⟩


/-! ## Lemmas about the backfill step (lines 290-295) -/

lemma find?_map_keyFix {β : Type} (f : String × β → String × β)
    (hf : ∀ e, (f e).1 = e.1) (l : List (String × β)) (c : String) :
    (l.map f).find? (fun e => e.1 == c) = (l.find? (fun e => e.1 == c)).map f := by
  induction l with
  | nil => rfl
  | cons e rest ih =>
    by_cases h : (e.1 == c) = true
    · have hfe : ((f e).1 == c) = true := by rw [hf e]; exact h
      rw [List.map_cons,
        @List.find?_cons_of_pos _ (fun e => e.1 == c) (f e) (List.map f rest) hfe,
        @List.find?_cons_of_pos _ (fun e => e.1 == c) e rest h]
      rfl
    · have hfe : ¬((f e).1 == c) = true := by rw [hf e]; exact h
      rw [List.map_cons,
        @List.find?_cons_of_neg _ (fun e => e.1 == c) (f e) (List.map f rest) hfe,
        @List.find?_cons_of_neg _ (fun e => e.1 == c) e rest h, ih]

lemma cellUpd_fst (r : Row) (e : String × Option String) : (cellUpd r e).1 = e.1 := by
  unfold cellUpd
  by_cases h1 : e.1 == "industry"
  · simp [h1]
  · by_cases h2 : !present e.2 && present (getCell r e.1) <;> simp [h1, h2]

lemma backfill_keys (rep r : Row) :
    (backfill rep r).cells.map Prod.fst = rep.cells.map Prod.fst := by
  simp only [backfill, List.map_map]
  exact List.map_congr_left (fun e _ => cellUpd_fst r e)

lemma getCell_backfill (rep r : Row) (c : String) :
    getCell (backfill rep r) c
      = ((rep.cells.find? (fun e => e.1 == c)).map (cellUpd r)).elim none Prod.snd := by
  simp only [getCell, backfill]
  rw [find?_map_keyFix _ (cellUpd_fst r)]
  cases hfind : rep.cells.find? (fun e => e.1 == c) with
  | none => rfl
  | some e => rfl

lemma getCell_backfill_industry (rep r : Row) :
    getCell (backfill rep r) "industry" = getCell rep "industry" := by
  rw [getCell_backfill]
  cases hfind : rep.cells.find? (fun e => e.1 == "industry") with
  | none => simp [getCell, hfind]
  | some e =>
    have he : (e.1 == "industry") = true :=
      @List.find?_some _ (fun e => e.1 == "industry") e rep.cells hfind
    simp [getCell, hfind, cellUpd, he]

lemma getCell_backfill_present (rep r : Row) (c : String)
    (h : present (getCell rep c) = true) :
    getCell (backfill rep r) c = getCell rep c := by
  rw [getCell_backfill]
  cases hfind : rep.cells.find? (fun e => e.1 == c) with
  | none => simp [getCell, hfind]
  | some e =>
    have hval : getCell rep c = e.2 := by simp [getCell, hfind]
    have hpres : present e.2 = true := by rwa [hval] at h
    simp [hval, cellUpd, hpres]

lemma getCell_backfill_not_present (rep r : Row) (c : String) (hc : c ≠ "industry")
    (hmem : c ∈ rep.cells.map Prod.fst)
    (h : present (getCell rep c) = false) :
    getCell (backfill rep r) c =
      if present (getCell r c) then getCell r c else getCell rep c := by
  obtain ⟨e, he, hfst⟩ := List.mem_map.mp hmem
  have hfind0 : ∃ e0, rep.cells.find? (fun x => x.1 == c) = some e0 := by
    rw [← Option.isSome_iff_exists, List.find?_isSome]
    exact ⟨e, he, by simp [hfst]⟩
  obtain ⟨e0, hfind⟩ := hfind0
  have hec : e0.1 = c := by
    have hb := @List.find?_some _ (fun x => x.1 == c) e0 rep.cells hfind
    simpa using hb
  have hval : getCell rep c = e0.2 := by simp [getCell, hfind]
  rw [getCell_backfill, hfind]
  have hind : (e0.1 == "industry") = false := by
    rw [hec]
    exact beq_eq_false_iff_ne.mpr hc
  rw [hval] at h
  by_cases h2 : present (getCell r c) = true
  · simp [cellUpd, hind, h, hec, h2, hc]
  · have h2f : present (getCell r c) = false := by
      cases hp : present (getCell r c)
      · rfl
      · exact absurd hp h2
    simp [cellUpd, hind, h, hec, h2f, hval]

/-- The sequence of backfills a representative row undergoes during the merge
pass, in processing (most-recent-first) order. -/
def foldBackfill (rep : Row) (rows : List Row) : Row :=
  rows.foldl backfill rep

lemma foldBackfill_keys (rep : Row) (rows : List Row) :
    (foldBackfill rep rows).cells.map Prod.fst = rep.cells.map Prod.fst := by
  induction rows generalizing rep with
  | nil => rfl
  | cons r rest ih =>
    rw [foldBackfill, List.foldl_cons]
    exact (ih (backfill rep r)).trans (backfill_keys rep r)

lemma foldBackfill_industry (rep : Row) (rows : List Row) :
    getCell (foldBackfill rep rows) "industry" = getCell rep "industry" := by
  induction rows generalizing rep with
  | nil => rfl
  | cons r rest ih =>
    rw [foldBackfill, List.foldl_cons]
    exact (ih _).trans (getCell_backfill_industry rep r)

lemma foldBackfill_present (rep : Row) (rows : List Row) (c : String)
    (h : present (getCell rep c) = true) :
    getCell (foldBackfill rep rows) c = getCell rep c := by
  induction rows generalizing rep with
  | nil => rfl
  | cons r rest ih =>
    rw [foldBackfill, List.foldl_cons]
    have hb := getCell_backfill_present rep r c h
    have hpres : present (getCell (backfill rep r) c) = true := by rw [hb]; exact h
    exact (ih _ hpres).trans hb

lemma foldBackfill_not_present (rep : Row) (rows : List Row) (c : String)
    (hc : c ≠ "industry") (hmem : c ∈ rep.cells.map Prod.fst)
    (h : present (getCell rep c) = false) :
    getCell (foldBackfill rep rows) c =
      match rows.find? (fun r => present (getCell r c)) with
      | some r => getCell r c
      | none => getCell rep c := by
  induction rows generalizing rep with
  | nil => rfl
  | cons r rest ih =>
    rw [foldBackfill, List.foldl_cons]
    by_cases h2 : present (getCell r c) = true
    · rw [@List.find?_cons_of_pos _ (fun r => present (getCell r c)) r rest h2]
      have hb : getCell (backfill rep r) c = getCell r c := by
        rw [getCell_backfill_not_present rep r c hc hmem h, if_pos h2]
      have hpres : present (getCell (backfill rep r) c) = true := by rw [hb]; exact h2
      exact (foldBackfill_present _ rest c hpres).trans hb
    · rw [@List.find?_cons_of_neg _ (fun r => present (getCell r c)) r rest h2]
      have hb : getCell (backfill rep r) c = getCell rep c := by
        rw [getCell_backfill_not_present rep r c hc hmem h, if_neg h2]
      have hmem2 : c ∈ (backfill rep r).cells.map Prod.fst := by
        rw [backfill_keys]
        exact hmem
      have h0 : present (getCell (backfill rep r) c) = false := by rw [hb]; exact h
      have hrec := ih (backfill rep r) hmem2 h0
      rw [show List.foldl backfill (backfill rep r) rest = foldBackfill (backfill rep r) rest
        from rfl, hrec]
      cases rest.find? (fun r => present (getCell r c)) with
      | some rr => rfl
      | none => exact hb

/-- One merge step of the engine on an already-seen identity: the index is
kept, the representative row is backfilled, the industry value accumulated. -/
lemma foldl_stepEntry_row (e : Entry) (ps : List (Nat × Row)) :
    (ps.foldl stepEntry e).1.2 = foldBackfill e.1.2 (ps.map Prod.snd) := by
  induction ps generalizing e with
  | nil => rfl
  | cons p rest ih =>
    rw [List.foldl_cons, List.map_cons]
    exact ih (stepEntry e p)

/-- C2: during the merge pass a representative row is updated only through
`backfill` (see `foldl_stepEntry_row`); across any sequence of older rows,
a field other than `industry` that is present and non-empty in the
representative keeps its value, and a missing/empty field receives the value
of the FIRST older row in which it is present and non-empty (or stays as it
was when no older row has it); the `industry` field is never touched by
backfill. -/
theorem claim_C2 (rep : Row) (rows : List Row) (c : String)
    (hc : c ≠ "industry") (hmem : c ∈ rep.cells.map Prod.fst) :
    (present (getCell rep c) = true →
      getCell (foldBackfill rep rows) c = getCell rep c)
  ∧ (present (getCell rep c) = false →
      getCell (foldBackfill rep rows) c =
        match rows.find? (fun r => present (getCell r c)) with
        | some r => getCell r c
        | none => getCell rep c)
  ∧ getCell (foldBackfill rep rows) "industry" = getCell rep "industry"
  ∧ (∀ (en : Entry) (ps : List (Nat × Row)),
      (ps.foldl stepEntry en).1.2 = foldBackfill en.1.2 (ps.map Prod.snd)) :=
  ⟨fun h => foldBackfill_present rep rows c h,
   fun h => foldBackfill_not_present rep rows c hc hmem h,
   foldBackfill_industry rep rows,
   foldl_stepEntry_row⟩

/-- C2 witness rows: the representative has `firstname` present and
`lastname` empty; the older row has both present. -/
def c2rep : Row :=
  ⟨"2024-01-01",
   [("firstname", some "Ann"), ("lastname", some ""),
    ("raw_email", none), ("industry", some "Meat")]⟩

def c2old : Row :=
  ⟨"2023-01-01",
   [("firstname", some "Bob"), ("lastname", some "Lee"),
    ("raw_email", some "e"), ("industry", some "Milling")]⟩

theorem claim_C2_witness :
    getCell (foldBackfill c2rep [c2old]) "firstname" = getCell c2rep "firstname"
  ∧ getCell (foldBackfill c2rep [c2old]) "lastname" = getCell c2old "lastname"
  ∧ getCell (foldBackfill c2rep [c2old]) "industry" = getCell c2rep "industry" := by
  refine ⟨(claim_C2 c2rep [c2old] "firstname" (by decide) (by decide)).1 (by decide),
    ?_, (claim_C2 c2rep [c2old] "lastname" (by decide) (by decide)).2.2.1⟩
  exact (claim_C2 c2rep [c2old] "lastname" (by decide) (by decide)).2.1 (by decide)

/-! ## Lemmas about the identity table of the merge pass -/

/-- The dict's keys in insertion order. -/
def table_keys (tbl : Table) : List String :=
  tbl.map Prod.fst

lemma table_lookup_eq (tbl : Table) (name : String) :
    table_lookup tbl name = (tbl.find? (fun en => en.1 == name)).map Prod.snd := by
  unfold table_lookup
  cases tbl.find? (fun en => en.1 == name) <;> rfl

lemma table_lookup_eq_none_iff (tbl : Table) (name : String) :
    table_lookup tbl name = none ↔ name ∉ table_keys tbl := by
  rw [table_lookup_eq]
  cases hf : tbl.find? (fun en => en.1 == name) with
  | none =>
    simp only [Option.map_none']
    rw [List.find?_eq_none] at hf
    simp only [table_keys, List.mem_map, true_iff]
    rintro ⟨en, hen, hfst⟩
    exact absurd (by simp [hfst]) (hf en hen)
  | some en =>
    simp only [Option.map_some']
    constructor
    · intro hc
      exact absurd hc (by simp)
    · intro hmem
      have h1 : (en.1 == name) = true :=
        @List.find?_some _ (fun en => en.1 == name) en tbl hf
      have h2 : en ∈ tbl := @List.mem_of_find?_eq_some _ (fun en => en.1 == name) _ _ hf
      have : name ∈ table_keys tbl := by
        simp only [table_keys, List.mem_map]
        exact ⟨en, h2, by simpa using h1⟩
      exact absurd this hmem

lemma table_lookup_append_sing_self (tbl : Table) (nm : String) (e : Entry)
    (h : table_lookup tbl nm = none) :
    table_lookup (tbl ++ [(nm, e)]) nm = some e := by
  rw [table_lookup_eq] at h ⊢
  have h0 : tbl.find? (fun en => en.1 == nm) = none := by
    cases hf : tbl.find? (fun en => en.1 == nm)
    · rfl
    · rw [hf] at h
      exact absurd h (by simp)
  rw [List.find?_append, h0]
  simp [List.find?]

lemma table_lookup_append_sing_ne (tbl : Table) (nm name : String) (e : Entry)
    (hne : name ≠ nm) :
    table_lookup (tbl ++ [(nm, e)]) name = table_lookup tbl name := by
  rw [table_lookup_eq, table_lookup_eq, List.find?_append]
  have h1 : [(nm, e)].find? (fun en => en.1 == name) = none := by
    have hb : (nm == name) = false := beq_eq_false_iff_ne.mpr (fun hh => hne hh.symm)
    simp [List.find?, hb]
  rw [h1]
  cases tbl.find? (fun en => en.1 == name) <;> rfl

lemma table_update_keyFix (nm : String) (v : Entry) (en : String × Entry) :
    ((fun en => if en.1 == nm then (en.1, v) else en) en).1 = en.1 := by
  by_cases h : (en.1 == nm) = true <;> simp [h]

lemma table_update_keys (tbl : Table) (nm : String) (v : Entry) :
    table_keys (table_update tbl nm v) = table_keys tbl := by
  simp only [table_keys, table_update, List.map_map]
  exact List.map_congr_left (fun en _ => table_update_keyFix nm v en)

lemma table_lookup_update_self (tbl : Table) (nm : String) (v : Entry) (e : Entry)
    (h : table_lookup tbl nm = some e) :
    table_lookup (table_update tbl nm v) nm = some v := by
  rw [table_lookup_eq] at h ⊢
  rw [table_update, find?_map_keyFix _ (table_update_keyFix nm v)]
  cases hf : tbl.find? (fun en => en.1 == nm) with
  | none =>
    rw [hf] at h
    exact absurd h (by simp)
  | some en =>
    have h1 : (en.1 == nm) = true :=
      @List.find?_some _ (fun en => en.1 == nm) en tbl hf
    have he : en.1 = nm := by simpa using h1
    simp [he]

lemma table_lookup_update_ne (tbl : Table) (nm name : String) (v : Entry)
    (hne : name ≠ nm) :
    table_lookup (table_update tbl nm v) name = table_lookup tbl name := by
  rw [table_lookup_eq, table_lookup_eq]
  rw [table_update, find?_map_keyFix _ (table_update_keyFix nm v)]
  cases hf : tbl.find? (fun en => en.1 == name) with
  | none => rfl
  | some en =>
    have h1 : (en.1 == name) = true :=
      @List.find?_some _ (fun en => en.1 == name) en tbl hf
    have h2 : en.1 ≠ nm := by
      have hh : en.1 = name := by simpa using h1
      rw [hh]
      exact hne
    simp [h2]

lemma mem_table_lookup (tbl : Table) (en : String × Entry)
    (hnd : (table_keys tbl).Nodup) (hen : en ∈ tbl) :
    table_lookup tbl en.1 = some en.2 := by
  induction tbl with
  | nil => exact absurd hen (by simp)
  | cons e0 rest ih =>
    rw [table_lookup_eq]
    rcases List.mem_cons.mp hen with heq | hmem
    · rw [← heq]
      rw [@List.find?_cons_of_pos _ (fun x => x.1 == en.1) en rest (by simp)]
      rfl
    · have hnd0 : e0.1 ∉ table_keys rest := by
        simp only [table_keys, List.map_cons, List.nodup_cons] at hnd
        exact hnd.1
      have hkey : en.1 ∈ table_keys rest := by
        simp only [table_keys, List.mem_map]
        exact ⟨en, hmem, rfl⟩
      have hne : (e0.1 == en.1) = false := by
        apply beq_eq_false_iff_ne.mpr
        intro hcontra
        rw [hcontra] at hnd0
        exact hnd0 hkey
      rw [@List.find?_cons_of_neg _ (fun x => x.1 == en.1) e0 rest (by simp [hne])]
      rw [← table_lookup_eq]
      exact ih (by simp only [table_keys, List.map_cons, List.nodup_cons] at hnd; exact hnd.2) hmem

/-! ## Characterization of the merge pass -/

/-- The rows of the (sorted) input whose identity is `name` — "the input
records sharing that identity". -/
def matching (name : String) (rs : List (Nat × Row)) : List (Nat × Row) :=
  rs.filter (fun p => generate_name p.2 == some name)

/-- The dict entry seeded for the first (most recent) record of an identity:
its index, the row itself as representative, and its industry as the
one-element accumulated list. -/
def seedEntry (p : Nat × Row) : Entry :=
  ((p.1, p.2), [industryOf p.2])

/-- What the engine's loop does to one identity's entry, as a function of the
entry before the loop (if any) and the matching rows processed. -/
def mergeEntry : Option Entry → List (Nat × Row) → Option Entry
  | some e, ps => some (ps.foldl stepEntry e)
  | none, [] => none
  | none, p :: ps => some (ps.foldl stepEntry (seedEntry p))

lemma matching_cons_eq (name : String) (p : Nat × Row) (rs : List (Nat × Row))
    (nm : String) (hgn : generate_name p.2 = some nm) (heq : nm = name) :
    matching name (p :: rs) = p :: matching name rs := by
  simp only [matching, List.filter_cons, hgn, heq]
  simp

lemma matching_cons_ne (name : String) (p : Nat × Row) (rs : List (Nat × Row))
    (nm : String) (hgn : generate_name p.2 = some nm) (hne : nm ≠ name) :
    matching name (p :: rs) = matching name rs := by
  simp only [matching, List.filter_cons, hgn]
  have hb : (some nm == some name) = false := by
    simp [hne]
  simp [hb]

/-- The central invariant of `duplicate_management`'s loop: after processing
`rs` starting from dict `tbl`, the entry of any non-empty `name` is obtained
by folding `stepEntry` (backfill + industry accumulation) over the rows of
`rs` whose identity is `name`, starting from the previous entry or, when the
name is new, from the seed built out of its first (most recent) row. -/
lemma processTable_lookup (rs : List (Nat × Row)) (tbl tbl' : Table)
    (hp : processTable tbl rs = some tbl') (name : String) (hname : name ≠ "") :
    table_lookup tbl' name = mergeEntry (table_lookup tbl name) (matching name rs) := by
  induction rs generalizing tbl with
  | nil =>
    simp only [processTable, Option.some.injEq] at hp
    subst hp
    cases h : table_lookup tbl name <;> simp [matching, mergeEntry, h]
  | cons p rest ih =>
    cases hgn : generate_name p.2 with
    | none => simp [processTable, hgn] at hp
    | some nm =>
      simp only [processTable, hgn] at hp
      by_cases hnm : nm = ""
      · rw [if_pos hnm] at hp
        rw [matching_cons_ne name p rest nm hgn (by rw [hnm]; exact fun hh => hname hh.symm)]
        exact ih tbl hp
      · rw [if_neg hnm] at hp
        cases hlk : table_lookup tbl nm with
        | none =>
          rw [hlk] at hp
          have hrec := ih _ hp
          by_cases heq : name = nm
          · subst heq
            rw [hrec, table_lookup_append_sing_self tbl name _ hlk,
              matching_cons_eq name p rest name hgn rfl, hlk]
            rfl
          · rw [hrec, table_lookup_append_sing_ne tbl nm name _ heq,
              matching_cons_ne name p rest nm hgn (fun hh => heq hh.symm)]
        | some e =>
          rw [hlk] at hp
          have hrec := ih _ hp
          by_cases heq : name = nm
          · subst heq
            rw [hrec, table_lookup_update_self tbl name (stepEntry e p) e hlk,
              matching_cons_eq name p rest name hgn rfl, hlk]
            rfl
          · rw [hrec, table_lookup_update_ne tbl nm name _ heq,
              matching_cons_ne name p rest nm hgn (fun hh => heq hh.symm)]

/-- A successful pass resolved every row's identity (an exception would have
aborted the batch). -/
lemma processTable_names_some (rs : List (Nat × Row)) (tbl tbl' : Table)
    (hp : processTable tbl rs = some tbl') :
    ∀ p ∈ rs, generate_name p.2 ≠ none := by
  induction rs generalizing tbl with
  | nil => intro p hmem; exact absurd hmem (by simp)
  | cons q rest ih =>
    intro p hmem
    cases hgn : generate_name q.2 with
    | none => simp [processTable, hgn] at hp
    | some nm =>
      simp only [processTable, hgn] at hp
      rcases List.mem_cons.mp hmem with hq | hmem2
      · rw [hq, hgn]
        exact fun hh => Option.noConfusion hh
      · by_cases hnm : nm = ""
        · rw [if_pos hnm] at hp
          exact ih tbl hp p hmem2
        · rw [if_neg hnm] at hp
          cases hlk : table_lookup tbl nm with
          | none => rw [hlk] at hp; exact ih _ hp p hmem2
          | some e => rw [hlk] at hp; exact ih _ hp p hmem2

/-- The keys the pass appends to the dict, given the keys already `seen`:
first occurrences of the distinct non-empty identities, in encounter order. -/
def newKeys (seen : List String) : List (Nat × Row) → List String
  | [] => []
  | p :: rs =>
    match generate_name p.2 with
    | none => []
    | some nm =>
      if nm = "" ∨ nm ∈ seen then newKeys seen rs
      else nm :: newKeys (nm :: seen) rs

lemma processTable_keys (rs : List (Nat × Row)) (tbl tbl' : Table) (seen : List String)
    (hseen : ∀ x, x ∈ seen ↔ x ∈ table_keys tbl)
    (hp : processTable tbl rs = some tbl') :
    table_keys tbl' = table_keys tbl ++ newKeys seen rs := by
  induction rs generalizing tbl seen with
  | nil =>
    simp only [processTable, Option.some.injEq] at hp
    subst hp
    simp [newKeys]
  | cons p rest ih =>
    cases hgn : generate_name p.2 with
    | none => simp [processTable, hgn] at hp
    | some nm =>
      simp only [processTable, hgn] at hp
      simp only [newKeys, hgn]
      by_cases hnm : nm = ""
      · rw [if_pos hnm] at hp
        rw [if_pos (Or.inl hnm)]
        exact ih tbl seen hseen hp
      · rw [if_neg hnm] at hp
        cases hlk : table_lookup tbl nm with
        | none =>
          rw [hlk] at hp
          have hnotin : nm ∉ seen := by
            rw [hseen nm]
            exact (table_lookup_eq_none_iff tbl nm).mp hlk
          rw [if_neg (by rintro (h1 | h2); exact hnm h1; exact hnotin h2)]
          have hkeys2 : table_keys (tbl ++ [(nm, ((p.1, p.2), [industryOf p.2]))])
              = table_keys tbl ++ [nm] := by
            simp [table_keys]
          have hseen2 : ∀ x, x ∈ (nm :: seen)
              ↔ x ∈ table_keys (tbl ++ [(nm, ((p.1, p.2), [industryOf p.2]))]) := by
            intro x
            rw [hkeys2]
            simp only [List.mem_cons, List.mem_append, List.mem_singleton]
            rw [hseen x]
            tauto
          have hrec := ih _ (nm :: seen) hseen2 hp
          rw [hrec, hkeys2, List.append_assoc]
          rfl
        | some e =>
          rw [hlk] at hp
          have hin : nm ∈ seen := by
            rw [hseen nm]
            by_contra hcon
            rw [← table_lookup_eq_none_iff tbl nm] at hcon
            rw [hcon] at hlk
            exact Option.noConfusion hlk
          rw [if_pos (Or.inr hin)]
          have hseen2 : ∀ x, x ∈ seen ↔ x ∈ table_keys (table_update tbl nm (stepEntry e p)) := by
            intro x
            rw [table_update_keys]
            exact hseen x
          have hrec := ih _ seen hseen2 hp
          rw [hrec, table_update_keys]

lemma newKeys_props (rs : List (Nat × Row)) :
    ∀ seen, (∀ x ∈ newKeys seen rs, x ∉ seen ∧ x ≠ "") ∧ (newKeys seen rs).Nodup := by
  induction rs with
  | nil => intro seen; simp [newKeys]
  | cons p rest ih =>
    intro seen
    cases hgn : generate_name p.2 with
    | none => simp [newKeys, hgn]
    | some nm =>
      simp only [newKeys, hgn]
      by_cases hcond : nm = "" ∨ nm ∈ seen
      · rw [if_pos hcond]
        exact ih seen
      · rw [if_neg hcond]
        push_neg at hcond
        obtain ⟨hne, hnotin⟩ := hcond
        have hrec := ih (nm :: seen)
        constructor
        · intro x hx
          rcases List.mem_cons.mp hx with hx1 | hx2
          · exact hx1 ▸ ⟨hnotin, hne⟩
          · have h2 := (hrec.1 x hx2)
            exact ⟨fun hc => h2.1 (List.mem_cons_of_mem nm hc), h2.2⟩
        · rw [List.nodup_cons]
          exact ⟨fun hc => (hrec.1 nm hc).1 (List.mem_cons_self nm seen), hrec.2⟩

/-- The non-empty identities of the rows, in row order. -/
def nonEmptyNames (rs : List (Nat × Row)) : List String :=
  (rs.filterMap (fun p => generate_name p.2)).filter (fun s => s != "")

lemma newKeys_toFinset (rs : List (Nat × Row)) :
    ∀ seen, (∀ p ∈ rs, generate_name p.2 ≠ none) →
      (newKeys seen rs).toFinset = (nonEmptyNames rs).toFinset \ seen.toFinset := by
  induction rs with
  | nil => intro seen _; simp [newKeys, nonEmptyNames]
  | cons p rest ih =>
    intro seen hall
    have hall2 : ∀ q ∈ rest, generate_name q.2 ≠ none :=
      fun q hq => hall q (List.mem_cons_of_mem p hq)
    cases hgn : generate_name p.2 with
    | none => exact absurd hgn (hall p (List.mem_cons_self p rest))
    | some nm =>
      have hnn : nonEmptyNames (p :: rest)
          = if nm = "" then nonEmptyNames rest else nm :: nonEmptyNames rest := by
        simp only [nonEmptyNames, List.filterMap_cons, hgn, List.filter_cons]
        by_cases hnm : nm = ""
        · simp [hnm]
        · have hb : (nm != "") = true := by simpa using hnm
          simp [hnm, hb]
      simp only [newKeys, hgn]
      by_cases hnm : nm = ""
      · rw [if_pos (Or.inl hnm), hnn, if_pos hnm]
        exact ih seen hall2
      · rw [hnn, if_neg hnm]
        by_cases hin : nm ∈ seen
        · rw [if_pos (Or.inr hin), ih seen hall2]
          ext x
          simp only [Finset.mem_sdiff, List.mem_toFinset, List.mem_cons]
          constructor
          · rintro ⟨hx, hns⟩
            exact ⟨Or.inr hx, hns⟩
          · rintro ⟨hx | hx, hns⟩
            · exact absurd (hx ▸ hin) hns
            · exact ⟨hx, hns⟩
        · rw [if_neg (by rintro (h1 | h2); exact hnm h1; exact hin h2)]
          have hrec := ih (nm :: seen) hall2
          ext x
          by_cases hx : x = nm
          · subst hx
            simp [hrec, hin]
          · simp [hrec, hx]

/-! ## The accumulated industry list -/

lemma foldl_stepEntry_fst (e : Entry) (ps : List (Nat × Row)) :
    (ps.foldl stepEntry e).1.1 = e.1.1 := by
  induction ps generalizing e with
  | nil => rfl
  | cons p rest ih => exact ih (stepEntry e p)

lemma foldl_stepEntry_inds (e : Entry) (ps : List (Nat × Row)) :
    (ps.foldl stepEntry e).2 = (ps.map (fun p => industryOf p.2)).foldl insOpt e.2 := by
  induction ps generalizing e with
  | nil => rfl
  | cons p rest ih => exact ih (stepEntry e p)

lemma foldl_insOpt_nodup (vs : List (Option String)) :
    ∀ acc, acc.Nodup → (vs.foldl insOpt acc).Nodup := by
  induction vs with
  | nil => intro acc h; exact h
  | cons v rest ih =>
    intro acc h
    apply ih
    unfold insOpt
    by_cases hv : v ∈ acc
    · rwa [if_pos hv]
    · rw [if_neg hv]
      exact List.nodup_cons.mpr ⟨hv, h⟩

lemma foldl_insOpt_toFinset (vs : List (Option String)) :
    ∀ acc, (vs.foldl insOpt acc).toFinset = acc.toFinset ∪ vs.toFinset := by
  induction vs with
  | nil => intro acc; simp
  | cons v rest ih =>
    intro acc
    rw [List.foldl_cons, ih]
    have hins : (insOpt acc v).toFinset = insert v acc.toFinset := by
      unfold insOpt
      by_cases hv : v ∈ acc
      · rw [if_pos hv]
        exact (Finset.insert_eq_self.mpr (List.mem_toFinset.mpr hv)).symm
      · rw [if_neg hv]
        simp
    rw [hins]
    ext x
    simp only [Finset.mem_union, Finset.mem_insert, List.mem_toFinset, List.toFinset_cons]
    tauto

/-- Deduplication keeping FIRST occurrences, in order.  The accumulated
industry list of an identity is the reverse of `dedupFirst` of its industry
values in processing (newest-first) order. -/
def dedupFirst : List (Option String) → List (Option String)
  | [] => []
  | a :: as => a :: dedupFirst (as.filter (fun x => x != a))
termination_by l => l.length
decreasing_by
  have h := List.length_filter_le (fun x => x != a) as
  simp
  omega

lemma mem_dedupFirst (l : List (Option String)) (x : Option String) :
    x ∈ dedupFirst l ↔ x ∈ l := by
  induction l using dedupFirst.induct with
  | case1 => simp [dedupFirst]
  | case2 a as ih =>
    rw [dedupFirst]
    simp only [List.mem_cons, ih, List.mem_filter]
    by_cases hx : x = a
    · simp [hx]
    · have hb : (x != a) = true := by simpa using hx
      simp [hx, hb]

lemma dedupFirst_append_singleton (pre : List (Option String)) (v : Option String) :
    dedupFirst (pre ++ [v])
      = if v ∈ pre then dedupFirst pre else dedupFirst pre ++ [v] := by
  induction pre using dedupFirst.induct with
  | case1 => simp [dedupFirst]
  | case2 a as ih =>
    rw [List.cons_append, dedupFirst, dedupFirst]
    by_cases hv : v = a
    · have hb : (v != a) = false := by simpa using hv
      have hf : List.filter (fun x => x != a) [v] = [] := by simp [hb]
      rw [List.filter_append, hf, List.append_nil, if_pos (by simp [hv])]
    · have hb : (v != a) = true := by simpa using hv
      have hf : List.filter (fun x => x != a) [v] = [v] := by simp [hb]
      rw [List.filter_append, hf, ih]
      have hmem : v ∈ as.filter (fun x => x != a) ↔ v ∈ as := by
        simp [List.mem_filter, hb]
      by_cases hvas : v ∈ as
      · rw [if_pos (hmem.mpr hvas), if_pos (by simp [hvas])]
      · rw [if_neg (fun hc => hvas (hmem.mp hc)),
          if_neg (by simp only [List.mem_cons]; rintro (h1 | h2); exact hv h1; exact hvas h2)]
        simp

lemma foldl_insOpt_dedupFirst (vs : List (Option String)) :
    ∀ pre, vs.foldl insOpt (dedupFirst pre).reverse = (dedupFirst (pre ++ vs)).reverse := by
  induction vs with
  | nil => intro pre; simp
  | cons v rest ih =>
    intro pre
    rw [List.foldl_cons]
    have hstep : insOpt (dedupFirst pre).reverse v = (dedupFirst (pre ++ [v])).reverse := by
      unfold insOpt
      rw [dedupFirst_append_singleton]
      by_cases hv : v ∈ pre
      · rw [if_pos (by rw [List.mem_reverse, mem_dedupFirst]; exact hv), if_pos hv]
      · rw [if_neg (by rw [List.mem_reverse, mem_dedupFirst]; exact hv), if_neg hv]
        simp
    rw [hstep, ih (pre ++ [v]), List.append_assoc]
    rfl

lemma dedupFirst_head? (l : List (Option String)) :
    (dedupFirst l).head? = l.head? := by
  cases l with
  | nil => simp [dedupFirst]
  | cons a as => rw [dedupFirst]; rfl

/-! ## Parsing, sorting and serialization of the engine -/

lemma parse_created_rows (df : List Row) :
    ∀ i l, parse_created i df = some l → l.map (fun q => q.2.2) = df := by
  induction df with
  | nil =>
    intro i l h
    simp only [parse_created, Option.some.injEq] at h
    subst h
    rfl
  | cons r rest ih =>
    intro i l h
    simp only [parse_created] at h
    cases hp : parseDate r.created with
    | none => rw [hp] at h; exact absurd h (by simp)
    | some t =>
      rw [hp] at h
      cases hrec : parse_created (i + 1) rest with
      | none => rw [hrec] at h; exact absurd h (by simp)
      | some l2 =>
        rw [hrec] at h
        simp only [Option.map_some', Option.some.injEq] at h
        subst h
        simp only [List.map_cons]
        rw [ih (i + 1) l2 hrec]

lemma parse_created_labels (df : List Row) :
    ∀ i l, parse_created i df = some l → l.map (fun q => q.2.1) = List.range' i df.length := by
  induction df with
  | nil =>
    intro i l h
    simp only [parse_created, Option.some.injEq] at h
    subst h
    rfl
  | cons r rest ih =>
    intro i l h
    simp only [parse_created] at h
    cases hp : parseDate r.created with
    | none => rw [hp] at h; exact absurd h (by simp)
    | some t =>
      rw [hp] at h
      cases hrec : parse_created (i + 1) rest with
      | none => rw [hrec] at h; exact absurd h (by simp)
      | some l2 =>
        rw [hrec] at h
        simp only [Option.map_some', Option.some.injEq] at h
        subst h
        simp only [List.map_cons, List.length_cons, List.range'_succ]
        rw [ih (i + 1) l2 hrec]

lemma concat_industries_fst (tbl : Table) :
    ∀ out, concat_industries tbl = some out →
      out.map Prod.fst = tbl.map (fun en => en.2.1.1) := by
  induction tbl with
  | nil =>
    intro out h
    simp only [concat_industries, Option.some.injEq] at h
    subst h
    rfl
  | cons en rest ih =>
    intro out h
    simp only [concat_industries] at h
    cases hs : serializeEntry en with
    | none => rw [hs] at h; exact absurd h (by simp)
    | some pr =>
      rw [hs] at h
      cases hrec : concat_industries rest with
      | none => rw [hrec] at h; exact absurd h (by simp)
      | some l2 =>
        rw [hrec] at h
        simp only [Option.map_some', Option.some.injEq] at h
        subst h
        simp only [List.map_cons]
        rw [ih l2 hrec]
        have hfst : pr.1 = en.2.1.1 := by
          unfold serializeEntry at hs
          by_cases hlen : en.2.2.length > 1
          · rw [if_pos hlen] at hs
            cases hq : seqOpt en.2.2 with
            | none => rw [hq] at hs; exact absurd hs (by simp)
            | some ss =>
              rw [hq] at hs
              simp only [Option.some.injEq] at hs
              rw [← hs]
          · rw [if_neg hlen] at hs
            simp only [Option.some.injEq] at hs
            rw [← hs]
        rw [hfst]

lemma concat_industries_length (tbl : Table) :
    ∀ out, concat_industries tbl = some out → out.length = tbl.length := by
  intro out h
  have := concat_industries_fst tbl out h
  have h1 : (out.map Prod.fst).length = (tbl.map (fun en => en.2.1.1)).length := by rw [this]
  simpa using h1

lemma seqOpt_map_some (ss : List String) : seqOpt (ss.map some) = some ss := by
  induction ss with
  | nil => rfl
  | cons s rest ih => simp [seqOpt, ih]

/-! ## Claim C5: an unparsable timestamp aborts the whole batch -/

/-- A well-formed record. -/
def c5good : Row :=
  ⟨"2024-01-01",
   [("firstname", some "Ann"), ("lastname", some "Lee"),
    ("raw_email", none), ("industry", some "Meat")]⟩

/-- A record with an unparsable `createdAt`. -/
def c5bad : Row :=
  ⟨"not-a-date",
   [("firstname", some "Bob"), ("lastname", some "Ray"),
    ("raw_email", none), ("industry", some "Oil")]⟩

/-- C5 evaluation: `pd.to_datetime(df['createdAt'])` (default
`errors="raise"`) raises on the first unparsable value, so the whole batch
aborts with NO output (`none`) — the good record is not merged — whereas the
good record alone merges fine.  The code does not reject the offending
record individually and continue. -/
theorem claim_C5 :
    duplicate_management [c5good, c5bad] = none
  ∧ duplicate_management [c5bad, c5good] = none
  ∧ duplicate_management [c5good] = some [(0, c5good)] := by
  exact ⟨by decide, by decide, by decide⟩

/-! ## Claim C1: one canonical record per distinct non-empty identity -/

/-- C1: when `duplicate_management` completes, the number of output records
equals the number of distinct non-empty identity keys of the input rows, and
the index label of any row whose identity is the empty string never appears
among the output labels (dropped, not merged, not passed through). -/
theorem claim_C1 (df : List Row) (out : List (Nat × Row))
    (h : duplicate_management df = some out) :
    out.length = ((df.filterMap generate_name).filter (fun s => s != "")).toFinset.card
  ∧ ∀ l, parse_created 0 df = some l →
      ∀ q ∈ l, generate_name q.2.2 = some "" → q.2.1 ∉ out.map Prod.fst := by
  rw [duplicate_management] at h
  cases hm : mergePass df with
  | none => rw [hm] at h; exact absurd h (by simp)
  | some tbl =>
  rw [hm, Option.some_bind] at h
  rw [mergePass] at hm
  cases hs : sortedRows df with
  | none => rw [hs] at hm; exact absurd hm (by simp)
  | some rs =>
  rw [hs, Option.some_bind] at hm
  rw [sortedRows] at hs
  cases hl : parse_created 0 df with
  | none => rw [hl] at hs; exact absurd hs (by simp)
  | some l0 =>
  rw [hl, Option.map_some'] at hs
  have hrs : rs = (List.insertionSort (fun a b => b.1 < a.1) l0).map (fun q => (q.2.1, q.2.2)) :=
    (Option.some.inj hs).symm
  have hperm : (List.insertionSort (fun a b => b.1 < a.1) l0).Perm l0 :=
    List.perm_insertionSort _ l0
  have hrows : (rs.map Prod.snd).Perm df := by
    rw [hrs, List.map_map]
    have h1 : ((List.insertionSort (fun a b => b.1 < a.1) l0).map
        (Prod.snd ∘ fun q => (q.2.1, q.2.2))).Perm (l0.map (fun q => q.2.2)) :=
      hperm.map _
    rw [parse_created_rows df 0 l0 hl] at h1
    exact h1
  have hnames : ∀ p ∈ rs, generate_name p.2 ≠ none :=
    processTable_names_some rs [] tbl hm
  have hkeys : table_keys tbl = newKeys [] rs := by
    have := processTable_keys rs [] tbl [] (by intro x; simp [table_keys]) hm
    simpa [table_keys] using this
  have hnodup : (newKeys [] rs).Nodup := (newKeys_props rs []).2
  have hout : out.length = tbl.length := concat_industries_length tbl out h
  have hmemiff : ∀ x, (∃ p ∈ rs, generate_name p.2 = some x)
      ↔ (∃ r ∈ df, generate_name r = some x) := by
    intro x
    constructor
    · rintro ⟨p, hp1, hp2⟩
      exact ⟨p.2, hrows.mem_iff.mp (List.mem_map.mpr ⟨p, hp1, rfl⟩), hp2⟩
    · rintro ⟨r, hr1, hr2⟩
      obtain ⟨p, hp1, hp2⟩ := List.mem_map.mp (hrows.mem_iff.mpr hr1)
      exact ⟨p, hp1, by rw [hp2]; exact hr2⟩
  constructor
  · rw [hout]
    have hlen : tbl.length = (newKeys [] rs).length := by
      have := congrArg List.length hkeys
      simpa [table_keys] using this
    rw [hlen, ← List.toFinset_card_of_nodup hnodup]
    congr 1
    rw [newKeys_toFinset rs [] hnames, List.toFinset_nil, Finset.sdiff_empty]
    ext x
    simp only [List.mem_toFinset, nonEmptyNames, List.mem_filter, List.mem_filterMap]
    rw [hmemiff x]
  · intro l hl2 q hq hqname hcontra
    have hleq : l = l0 := (Option.some.inj hl2).symm
    rw [hleq] at hq
    rw [concat_industries_fst tbl out h] at hcontra
    obtain ⟨en, hen, henfst⟩ := List.mem_map.mp hcontra
    have hknodup : (table_keys tbl).Nodup := by rw [hkeys]; exact hnodup
    have henkey : en.1 ∈ table_keys tbl := List.mem_map.mpr ⟨en, hen, rfl⟩
    have hename : en.1 ≠ "" := by
      rw [hkeys] at henkey
      exact ((newKeys_props rs []).1 en.1 henkey).2
    have hlk : table_lookup tbl en.1 = some en.2 := mem_table_lookup tbl en hknodup hen
    have hchar := processTable_lookup rs [] tbl hm en.1 hename
    rw [hlk] at hchar
    have hlk0 : table_lookup ([] : Table) en.1 = none := rfl
    rw [hlk0] at hchar
    cases hmatch : matching en.1 rs with
    | nil => rw [hmatch] at hchar; exact Option.noConfusion hchar
    | cons p0 ps =>
      rw [hmatch] at hchar
      have hen2 : en.2 = ps.foldl stepEntry (seedEntry p0) := Option.some.inj hchar
      have hlabel : en.2.1.1 = p0.1 := by
        rw [hen2, foldl_stepEntry_fst]
        rfl
      have hp0 : p0 ∈ matching en.1 rs := by rw [hmatch]; exact List.mem_cons_self p0 ps
      have hp0' := List.mem_filter.mp hp0
      have hp0name : generate_name p0.2 = some en.1 := by
        have := hp0'.2
        simpa using this
      obtain ⟨q0, hq0sort, hq0proj⟩ := List.mem_map.mp (hrs ▸ hp0'.1)
      have hq0mem : q0 ∈ l0 := hperm.mem_iff.mp hq0sort
      have hlab : (l0.map (fun q => q.2.1)).Nodup := by
        rw [parse_created_labels df 0 l0 hl]
        exact List.nodup_range' 0 df.length
      have hqq0 : q = q0 := by
        apply List.inj_on_of_nodup_map hlab hq hq0mem
        show q.2.1 = q0.2.1
        have h1 : q0.2.1 = p0.1 := by rw [← hq0proj]
        rw [h1, ← hlabel, henfst]
      have hq22 : q.2.2 = p0.2 := by
        rw [hqq0, ← hq0proj]
      rw [hq22, hp0name] at hqname
      exact hename (Option.some.inj hqname)

/-- C1 witness input: two records of the same identity around one record
whose identity resolves to the empty string. -/
def c1rowA : Row :=
  ⟨"2024-01-01",
   [("firstname", some "Ann"), ("lastname", some "Lee"),
    ("raw_email", none), ("industry", some "Meat")]⟩

def c1rowB : Row :=
  ⟨"2023-06-01",
   [("firstname", some ""), ("lastname", some ""),
    ("raw_email", none), ("industry", some "Oil")]⟩

def c1rowC : Row :=
  ⟨"2022-01-01",
   [("firstname", some "Ann"), ("lastname", some "Lee"),
    ("raw_email", none), ("industry", some "Milling")]⟩

def c1df : List Row := [c1rowA, c1rowB, c1rowC]

/-- The canonical set `duplicate_management` produces for `c1df`. -/
def c1out : List (Nat × Row) :=
  [(0, ⟨"2024-01-01",
    [("firstname", some "Ann"), ("lastname", some "Lee"),
     ("raw_email", none), ("industry", some ";Milling;Meat")]⟩)]

theorem claim_C1_witness :
    c1out.length = ((c1df.filterMap generate_name).filter (fun s => s != "")).toFinset.card
  ∧ (1 : Nat) ∉ c1out.map Prod.fst := by
  have h := claim_C1 c1df c1out (by decide)
  refine ⟨h.1, ?_⟩
  exact h.2 [(20240101, 0, c1rowA), (20230601, 1, c1rowB), (20220101, 2, c1rowC)]
    (by decide) (20230601, 1, c1rowB) (by decide) (by decide)

/-! ## Claims C3 and C4: the industry history -/

/-- Every entry of the final dict comes from a non-empty identity and is the
fold of `stepEntry` over that identity's rows, seeded with the first one. -/
lemma processTable_entry (rs : List (Nat × Row)) (tbl : Table)
    (hp : processTable [] rs = some tbl) (en : String × Entry) (hen : en ∈ tbl) :
    en.1 ≠ "" ∧ ∃ p0 ps, matching en.1 rs = p0 :: ps
      ∧ en.2 = ps.foldl stepEntry (seedEntry p0) := by
  have hkeys : table_keys tbl = newKeys [] rs := by
    have := processTable_keys rs [] tbl [] (by intro x; simp [table_keys]) hp
    simpa [table_keys] using this
  have hknodup : (table_keys tbl).Nodup := by
    rw [hkeys]
    exact (newKeys_props rs []).2
  have henkey : en.1 ∈ table_keys tbl := List.mem_map.mpr ⟨en, hen, rfl⟩
  have hename : en.1 ≠ "" := by
    rw [hkeys] at henkey
    exact ((newKeys_props rs []).1 en.1 henkey).2
  have hlk : table_lookup tbl en.1 = some en.2 := mem_table_lookup tbl en hknodup hen
  have hchar := processTable_lookup rs [] tbl hp en.1 hename
  rw [hlk] at hchar
  have hlk0 : table_lookup ([] : Table) en.1 = none := rfl
  rw [hlk0] at hchar
  refine ⟨hename, ?_⟩
  cases hmatch : matching en.1 rs with
  | nil => rw [hmatch] at hchar; exact Option.noConfusion hchar
  | cons p0 ps =>
    rw [hmatch] at hchar
    exact ⟨p0, ps, rfl, Option.some.inj hchar⟩

/-- C3: the accumulated industry list of an identity has no duplicate value,
and the SET of its values equals the set of `industry` values over all input
records whose identity is that name — no distinct value lost, none repeated.
(`concat_industries` then serializes exactly this list.) -/
theorem claim_C3 (df : List Row) (tbl : Table) (h : mergePass df = some tbl)
    (en : String × Entry) (hen : en ∈ tbl) :
    en.2.2.Nodup
  ∧ en.2.2.toFinset
      = ((df.filter (fun r => generate_name r == some en.1)).map industryOf).toFinset := by
  rw [mergePass] at h
  cases hs : sortedRows df with
  | none => rw [hs] at h; exact absurd h (by simp)
  | some rs =>
  rw [hs, Option.some_bind] at h
  rw [sortedRows] at hs
  cases hl : parse_created 0 df with
  | none => rw [hl] at hs; exact absurd hs (by simp)
  | some l0 =>
  rw [hl, Option.map_some'] at hs
  have hrs : rs = (List.insertionSort (fun a b => b.1 < a.1) l0).map (fun q => (q.2.1, q.2.2)) :=
    (Option.some.inj hs).symm
  have hperm : (List.insertionSort (fun a b => b.1 < a.1) l0).Perm l0 :=
    List.perm_insertionSort _ l0
  have hrows : (rs.map Prod.snd).Perm df := by
    rw [hrs, List.map_map]
    have h1 : ((List.insertionSort (fun a b => b.1 < a.1) l0).map
        (Prod.snd ∘ fun q => (q.2.1, q.2.2))).Perm (l0.map (fun q => q.2.2)) :=
      hperm.map _
    rw [parse_created_rows df 0 l0 hl] at h1
    exact h1
  obtain ⟨hename, p0, ps, hmatch, hen2⟩ := processTable_entry rs tbl h en hen
  have hinds : en.2.2 = (ps.map (fun p => industryOf p.2)).foldl insOpt [industryOf p0.2] := by
    rw [hen2, foldl_stepEntry_inds]
    rfl
  constructor
  · rw [hinds]
    exact foldl_insOpt_nodup _ _ (by simp)
  · rw [hinds, foldl_insOpt_toFinset]
    have hset : ((matching en.1 rs).map (fun p => industryOf p.2)).toFinset
        = [industryOf p0.2].toFinset ∪ (ps.map (fun p => industryOf p.2)).toFinset := by
      rw [hmatch, List.map_cons]
      ext x
      simp only [List.toFinset_cons, List.toFinset_nil, Finset.mem_insert, Finset.mem_union,
        List.mem_toFinset]
      tauto
    rw [← hset]
    ext x
    simp only [List.mem_toFinset, List.mem_map, matching, List.mem_filter]
    constructor
    · rintro ⟨p, ⟨hp1, hp2⟩, hp3⟩
      obtain ⟨r, hr1, hr2⟩ : ∃ r ∈ df, p.2 = r :=
        ⟨p.2, hrows.mem_iff.mp (List.mem_map.mpr ⟨p, hp1, rfl⟩), rfl⟩
      exact ⟨r, ⟨hr1, by rw [← hr2]; exact hp2⟩, by rw [← hr2]; exact hp3⟩
    · rintro ⟨r, ⟨hr1, hr2⟩, hr3⟩
      obtain ⟨p, hp1, hp2⟩ := List.mem_map.mp (hrows.mem_iff.mpr hr1)
      exact ⟨p, ⟨hp1, by rw [hp2]; exact hr2⟩, by rw [hp2]; exact hr3⟩

/-- C4: for an identity of the sorted (most-recent-first) input, the
accumulated industry list is the REVERSE of the keep-first deduplication of
its industry values in processing order — so the value whose latest
occurrence is oldest comes first and the representative's own (newest) value
comes last (conjunct 2).  With more than one distinct value the canonical
record's `industry` is every value joined by `";"` with a leading `";"`
(conjunct 3); with exactly one distinct value the representative row is left
untouched and its `industry` is that bare value (conjunct 4). -/
theorem claim_C4 (df : List Row) (rs : List (Nat × Row)) (tbl : Table)
    (hsort : sortedRows df = some rs) (hp : processTable [] rs = some tbl)
    (en : String × Entry) (hen : en ∈ tbl) :
    en.2.2 = (dedupFirst ((matching en.1 rs).map (fun p => industryOf p.2))).reverse
  ∧ ((matching en.1 rs).map (fun p => industryOf p.2)).head? = en.2.2.getLast?
  ∧ (∀ ss : List String, en.2.2 = ss.map some → 1 < ss.length →
      serializeEntry en = some (en.2.1.1,
        setCell en.2.1.2 "industry" (some (";" ++ String.intercalate ";" ss))))
  ∧ (∀ v, en.2.2 = [v] → serializeEntry en = some en.2.1 ∧ industryOf en.2.1.2 = v) := by
  obtain ⟨hename, p0, ps, hmatch, hen2⟩ := processTable_entry rs tbl hp en hen
  have hseed : dedupFirst [industryOf p0.2] = [industryOf p0.2] := by
    rw [dedupFirst]
    simp [dedupFirst]
  have hinds : en.2.2 = (dedupFirst ((matching en.1 rs).map (fun p => industryOf p.2))).reverse := by
    rw [hen2, foldl_stepEntry_inds, hmatch, List.map_cons]
    have h1 : (seedEntry p0).2 = (dedupFirst [industryOf p0.2]).reverse := by
      rw [hseed]
      rfl
    rw [h1, foldl_insOpt_dedupFirst]
    rfl
  refine ⟨hinds, ?_, ?_, ?_⟩
  · rw [hinds, List.getLast?_reverse, dedupFirst_head?]
  · intro ss hss hlen
    unfold serializeEntry
    rw [if_pos (by rw [hss, List.length_map]; exact hlen), hss, seqOpt_map_some]
  · intro v hv
    constructor
    · unfold serializeEntry
      rw [if_neg (by rw [hv]; simp)]
    · have hrow : en.2.1.2 = foldBackfill p0.2 (ps.map Prod.snd) := by
        rw [hen2, foldl_stepEntry_row]
        rfl
      have hind : industryOf en.2.1.2 = industryOf p0.2 := by
        rw [hrow]
        exact foldBackfill_industry p0.2 (ps.map Prod.snd)
      have hhead : ((matching en.1 rs).map (fun p => industryOf p.2)).head? = some v := by
        have h2 : ((matching en.1 rs).map (fun p => industryOf p.2)).head? = en.2.2.getLast? := by
          rw [hinds, List.getLast?_reverse, dedupFirst_head?]
        rw [h2, hv]
        rfl
      rw [hmatch, List.map_cons] at hhead
      simp only [List.head?_cons, Option.some.injEq] at hhead
      rw [hind, hhead]

/-- C3 witness input: two records of one identity with the same industry. -/
def c3rowA : Row :=
  ⟨"2024-01-01",
   [("firstname", some "Bo"), ("lastname", some "Ray"),
    ("raw_email", none), ("industry", some "Oil")]⟩

def c3rowB : Row :=
  ⟨"2023-06-01",
   [("firstname", some "Bo"), ("lastname", some "Ray"),
    ("raw_email", none), ("industry", some "Oil")]⟩

def c3df : List Row := [c3rowA, c3rowB]

def c3en : String × Entry := ("Bo Ray", ((0, c3rowA), [some "Oil"]))

theorem claim_C3_witness :
    c3en.2.2.Nodup
  ∧ c3en.2.2.toFinset
      = ((c3df.filter (fun r => generate_name r == some c3en.1)).map industryOf).toFinset :=
  claim_C3 c3df [c3en] (by decide) c3en (by decide)

/-- C4 witness input: the spec's Ann Lee scenario (industries Meat, Milling,
Meat from newest to oldest). -/
def c4rowA : Row :=
  ⟨"2024-01-01",
   [("firstname", some "Ann"), ("lastname", some "Lee"),
    ("raw_email", none), ("industry", some "Meat")]⟩

def c4rowB : Row :=
  ⟨"2023-06-01",
   [("firstname", some "Ann"), ("lastname", some "Lee"),
    ("raw_email", none), ("industry", some "Milling")]⟩

def c4rowC : Row :=
  ⟨"2022-01-01",
   [("firstname", some "Ann"), ("lastname", some "Lee"),
    ("raw_email", none), ("industry", some "Meat")]⟩

def c4df : List Row := [c4rowA, c4rowB, c4rowC]

def c4rs : List (Nat × Row) := [(0, c4rowA), (1, c4rowB), (2, c4rowC)]

def c4en : String × Entry := ("Ann Lee", ((0, c4rowA), [some "Milling", some "Meat"]))

theorem claim_C4_witness :
    c4en.2.2 = (dedupFirst ((matching c4en.1 c4rs).map (fun p => industryOf p.2))).reverse
  ∧ serializeEntry c4en = some (c4en.2.1.1,
      setCell c4en.2.1.2 "industry" (some (";" ++ String.intercalate ";" ["Milling", "Meat"]))) := by
  have h := claim_C4 c4df c4rs [c4en] (by decide) (by decide) c4en (by decide)
  exact ⟨h.1, h.2.2.1 ["Milling", "Meat"] (by decide) (by decide)⟩
